import Mathlib

/-!
# Verification of the dnsscale reconciliation engine

A shallow embedding of the core reconciliation logic of the `dnsscale`
repository (`main.go` and `providers/route53.go`), together with proofs of
the testable properties stated in its specification.

The embedding models:
* the shared DNS record model and the provider CRUD contract,
* the deletion sweep `deleteNodeDNS` (ownership-marker driven),
* the upsert reconcile path `reconcile` (address records + TXT ownership),
* the worker's success/failure handling (`Forget` vs `AddRateLimited`),
* the change detector `syncNodes` over the node cache,
* the Route53 provider's `ListRecords` filtering.

Backend effects are modelled by explicit traces of `BackendOp` values and by
response functions (`DNSRecord → Bool` for per-call success, `Option` for a
fallible listing).
-/

/-- Go `strings.Contains(s, pat)` on the character-list model of strings:
`pat` occurs as a contiguous substring of `s`.  Matches Go's semantics,
including `pat = ""` being contained in every string. -/
def strContainsAux (pat : List Char) : List Char → Bool
  | [] => pat.isEmpty
  | c :: rest => List.isPrefixOf pat (c :: rest) || strContainsAux pat rest

/-- Go `strings.Contains`. -/
def strContains (s pat : String) : Bool :=
  strContainsAux pat.toList s.toList

/-- Go `strings.HasSuffix(key, ":delete")`. -/
def hasDeleteSuffix (key : String) : Bool :=
  List.isSuffixOf ":delete".toList key.toList

/-- Go `strings.TrimSuffix(key, ":delete")`: drop the suffix when present. -/
def trimDeleteSuffix (key : String) : String :=
  if hasDeleteSuffix key then
    String.mk (key.toList.take (key.toList.length - ":delete".toList.length))
  else key

/-- `providers.DNSRecord`: the shared record model {Name, Type, Value, TTL}. -/
structure DNSRecord where
  name : String
  type : String
  value : String
  ttl : Int
  deriving DecidableEq

/-- One observable call against the DNS backend, for reasoning about which
backend operations a reconciliation issues. -/
inductive BackendOp where
  | update (record : DNSRecord)
  | listAll
  | delete (record : DNSRecord)
  deriving DecidableEq

/-- The condition tested in `deleteNodeDNS`'s scan loop: a TXT record whose
value contains the substring `node_id=<nodeID>` (Go:
`record.Type == "TXT" && strings.Contains(record.Value, fmt.Sprintf("node_id=%s", nodeID))`). -/
def isOwnershipMatch (nodeID : String) (r : DNSRecord) : Bool :=
  r.type == "TXT" && strContains r.value ("node_id=" ++ nodeID)

/-- The scan loop of `deleteNodeDNS`: walk the listed records; at the first
ownership match, delete (i.e. emit) every record in the full listing sharing
that record's name, then break.  Returns the records for which
`DeleteRecord` is called, in call order. -/
def deleteNodeDNSLoop (allRecords : List DNSRecord) (nodeID : String) :
    List DNSRecord → List DNSRecord
  | [] => []
  | r :: rest =>
    if isOwnershipMatch nodeID r then
      allRecords.filter (fun rtd => rtd.name == r.name)
    else deleteNodeDNSLoop allRecords nodeID rest

/-- `deleteNodeDNS`: list the zone's records (`none` models a failed
`ListRecords`, which is returned as an error); otherwise sweep and return
the records deleted.  Per-record delete failures are logged and ignored in
the source, so the overall result is success whenever listing succeeded. -/
def deleteNodeDNS (listResult : Option (List DNSRecord)) (nodeID : String) :
    Except String (List DNSRecord) :=
  match listResult with
  | none => .error "failed to list records"
  | some records => .ok (deleteNodeDNSLoop records nodeID records)

/-- One Route53 `ResourceRecordSet` as consumed by
`Route53Provider.ListRecords`: a name, a type, a TTL and the values of its
resource records. -/
structure RRSet where
  name : String
  rtype : String
  ttl : Int
  values : List String
  deriving DecidableEq

/-- `Route53Provider.ListRecords`: flatten the paginated record sets,
keeping only sets of type `A` or `AAAA` and producing one `DNSRecord` per
resource record value. -/
def route53ListRecords (sets : List RRSet) : List DNSRecord :=
  sets.flatMap (fun rrs =>
    if rrs.rtype == "A" || rrs.rtype == "AAAA" then
      rrs.values.map (fun v => ⟨rrs.name, rrs.rtype, v, rrs.ttl⟩)
    else [])

/-- The scan loop expressed through `List.find?`: the sweep is determined by
the first ownership match in the listing, if any. -/
theorem deleteNodeDNSLoop_eq_find (allRecords : List DNSRecord)
    (nodeID : String) (l : List DNSRecord) :
    deleteNodeDNSLoop allRecords nodeID l =
      match l.find? (isOwnershipMatch nodeID) with
      | some txt => allRecords.filter (fun rtd => rtd.name == txt.name)
      | none => [] := by
  induction l with
  | nil => rfl
  | cons r rest ih =>
    by_cases h : isOwnershipMatch nodeID r = true
    · simp [deleteNodeDNSLoop, List.find?, h]
    · simp only [Bool.not_eq_true] at h
      simp [deleteNodeDNSLoop, List.find?, h, ih]

/-- Concrete record set for exercising the sweep: the TXT ownership record
for node `123456` at `foo.example.com`, the A and AAAA records at the same
name, and an unrelated A record. -/
def sweepRecordsMatch : List DNSRecord :=
  [⟨"foo.example.com", "TXT", "\"dnsscale-managed node_id=123456\"", 300⟩,
   ⟨"foo.example.com", "A", "100.64.1.1", 300⟩,
   ⟨"foo.example.com", "AAAA", "fd7a:115c:a1e0::1", 300⟩,
   ⟨"bar.example.com", "A", "100.64.2.2", 300⟩]

/-- Concrete record set with no ownership record for node `123456`. -/
def sweepRecordsNoMatch : List DNSRecord :=
  [⟨"foo.example.com", "A", "100.64.1.1", 300⟩,
   ⟨"bar.example.com", "TXT", "\"dnsscale-managed node_id=999\"", 300⟩]

/-- C1: when some TXT record in the listing embeds the target node id, the
sweep deletes exactly the records (of any type) sharing the name of a
matching TXT record — namely the first match — and succeeds; when no record
matches, the sweep deletes nothing and succeeds. -/
theorem deleteNodeDNS_sweep_exact (records : List DNSRecord) (nodeID : String) :
    ((∃ r ∈ records, isOwnershipMatch nodeID r = true) →
      ∃ txt ∈ records, isOwnershipMatch nodeID txt = true ∧
        deleteNodeDNS (some records) nodeID =
          Except.ok (records.filter (fun rtd => rtd.name == txt.name))) ∧
    ((∀ r ∈ records, isOwnershipMatch nodeID r = false) →
      deleteNodeDNS (some records) nodeID = Except.ok []) := by
  constructor
  · intro hex
    cases htxt : records.find? (isOwnershipMatch nodeID) with
    | none =>
      obtain ⟨r, hr, hm⟩ := hex
      exact absurd hm (by simpa using List.find?_eq_none.mp htxt r hr)
    | some txt =>
      exact ⟨txt, List.mem_of_find?_eq_some htxt, List.find?_some htxt, by
        simp [deleteNodeDNS, deleteNodeDNSLoop_eq_find, htxt]⟩
  · intro hall
    have hnone : records.find? (isOwnershipMatch nodeID) = none :=
      List.find?_eq_none.mpr (fun r hr => by simp [hall r hr])
    simp [deleteNodeDNS, deleteNodeDNSLoop_eq_find, hnone]

/-- C1 witness: the spec's example sweep (node id `123456`, ownership TXT at
`foo.example.com` plus the A/AAAA records at that name, an unrelated record
left alone), and the silent no-op when no ownership record matches. -/
theorem deleteNodeDNS_sweep_exact_witness :
    (∃ txt ∈ sweepRecordsMatch, isOwnershipMatch "123456" txt = true ∧
        deleteNodeDNS (some sweepRecordsMatch) "123456" =
          Except.ok (sweepRecordsMatch.filter (fun rtd => rtd.name == txt.name))) ∧
    deleteNodeDNS (some sweepRecordsNoMatch) "123456" = Except.ok [] :=
  ⟨(deleteNodeDNS_sweep_exact sweepRecordsMatch "123456").1 (by decide),
   (deleteNodeDNS_sweep_exact sweepRecordsNoMatch "123456").2 (by decide)⟩

/-- Helper: when no record in the scanned list satisfies the ownership
match, the sweep loop emits no deletes. -/
theorem deleteNodeDNSLoop_eq_nil_of_no_match (allRecords : List DNSRecord)
    (nodeID : String) (l : List DNSRecord)
    (h : ∀ r ∈ l, isOwnershipMatch nodeID r = false) :
    deleteNodeDNSLoop allRecords nodeID l = [] := by
  rw [deleteNodeDNSLoop_eq_find]
  have hnone : l.find? (isOwnershipMatch nodeID) = none :=
    List.find?_eq_none.mpr (fun r hr => by simp [h r hr])
  simp [hnone]

/-- C3: the Route53 `ListRecords` output contains only records of type `A`
or `AAAA` (in particular, never a TXT record), and consequently a deletion
sweep run against any Route53 listing finds no ownership marker, issues no
deletes, and succeeds. -/
theorem route53ListRecords_no_txt_sweep (sets : List RRSet) (nodeID : String) :
    (route53ListRecords sets).all
        (fun r => r.type == "A" || r.type == "AAAA") = true ∧
    (route53ListRecords sets).all (fun r => !(r.type == "TXT")) = true ∧
    deleteNodeDNS (some (route53ListRecords sets)) nodeID = Except.ok [] := by
  have hall : ∀ r ∈ route53ListRecords sets,
      (r.type == "A" || r.type == "AAAA") = true := by
    intro r hr
    simp only [route53ListRecords, List.mem_flatMap] at hr
    obtain ⟨rrs, _, hr⟩ := hr
    by_cases htype : (rrs.rtype == "A" || rrs.rtype == "AAAA") = true
    · simp only [htype, if_true, List.mem_map] at hr
      obtain ⟨v, _, rfl⟩ := hr
      exact htype
    · simp [htype] at hr
  have hnotxt : ∀ r ∈ route53ListRecords sets, (!(r.type == "TXT")) = true := by
    intro r hr
    have := hall r hr
    rcases Bool.or_eq_true_iff.mp this with h | h
    · simp [eq_of_beq h]
    · simp [eq_of_beq h]
  refine ⟨List.all_eq_true.mpr hall, List.all_eq_true.mpr hnotxt, ?_⟩
  simp only [deleteNodeDNS, Except.ok.injEq]
  apply deleteNodeDNSLoop_eq_nil_of_no_match
  intro r hr
  have := hall r hr
  simp only [isOwnershipMatch]
  rcases Bool.or_eq_true_iff.mp this with h | h
  · simp [eq_of_beq h]
  · simp [eq_of_beq h]

/-- The record set of a node whose id `1234` has the distinct node id `123`
as a proper prefix: the ownership TXT for `1234` and an address record at
the same name. -/
def collisionRecords : List DNSRecord :=
  [⟨"foo.example.com", "TXT", "\"dnsscale-managed node_id=1234\"", 300⟩,
   ⟨"foo.example.com", "A", "100.64.1.1", 300⟩]

/-- C4: the ownership test is substring containment of `node_id=<id>`, so a
deletion key for node `123` — a proper prefix of the distinct id `1234` —
matches node `1234`'s ownership TXT record, and the sweep deletes all of
node `1234`'s records. -/
theorem sweep_substring_collision :
    ("123" : String) ≠ "1234" ∧
    List.isPrefixOf "123".toList "1234".toList = true ∧
    isOwnershipMatch "123" ⟨"foo.example.com", "TXT",
      "\"dnsscale-managed node_id=1234\"", 300⟩ = true ∧
    deleteNodeDNS (some collisionRecords) "123" =
      Except.ok collisionRecords := by
  exact ⟨by decide, by decide, by decide, rfl⟩

/-- `TailscaleNode`: the simplified node representation used internally. -/
structure TailscaleNode where
  id : String
  name : String
  hostname : String
  addresses : List String
  tags : List String
  online : Bool
  lastSeen : Nat
  deriving DecidableEq

/-- The address-list comparison inside `nodesEqual`: equal length and
element-wise equality in source order. -/
def addressesEqual : List String → List String → Bool
  | [], [] => true
  | a :: as, b :: bs => a == b && addressesEqual as bs
  | _, _ => false

/-- `nodesEqual`: nodes compare equal when name, online flag and address
lists agree; tags (and everything else) are intentionally ignored. -/
def nodesEqual (a b : TailscaleNode) : Bool :=
  a.name == b.name && a.online == b.online &&
    addressesEqual a.addresses b.addresses

/-- The node cache, modelled as an association list from node id to the
last-observed node (Go: `map[string]TailscaleNode`). -/
abbrev NodeCache := List (String × TailscaleNode)

/-- Go map read `cache[id]`. -/
def lookupNode (cache : NodeCache) (id : String) : Option TailscaleNode :=
  (cache.find? (fun p => p.1 == id)).map Prod.snd

/-- Go map write `cache[id] = n`: replace the existing entry in place, or
append a new one. -/
def insertNode (cache : NodeCache) (id : String) (n : TailscaleNode) :
    NodeCache :=
  if cache.any (fun p => p.1 == id) then
    cache.map (fun p => if p.1 == id then (id, n) else p)
  else cache ++ [(id, n)]

/-- The first loop of `syncNodes`: for each fetched node, upsert the cache
entry and queue the node id when the node is new or materially changed.
Returns the updated cache and the queued keys in emission order. -/
def upsertPass : NodeCache → List TailscaleNode → NodeCache × List String
  | cache, [] => (cache, [])
  | cache, n :: rest =>
    match lookupNode cache n.id with
    | some existing =>
      if nodesEqual existing n then upsertPass cache rest
      else
        let next := upsertPass (insertNode cache n.id n) rest
        (next.1, n.id :: next.2)
    | none =>
      let next := upsertPass (insertNode cache n.id n) rest
      (next.1, n.id :: next.2)

/-- The second loop of `syncNodes`: every cached id absent from the fresh
snapshot is removed from the cache and queued as `<id>:delete`.  Returns the
surviving cache and the queued deletion keys. -/
def deletePass (currentIds : List String) :
    NodeCache → NodeCache × List String
  | [] => ([], [])
  | p :: rest =>
    let next := deletePass currentIds rest
    if currentIds.contains p.1 then (p :: next.1, next.2)
    else (next.1, (p.1 ++ ":delete") :: next.2)

/-- Result of one change-detector run: the new cache and the keys added to
the work queue, in order. -/
structure SyncResult where
  cache : NodeCache
  queued : List String
  deriving DecidableEq

/-- `syncNodes`: one poll cycle of the change detector.  `none` models a
failed node-list fetch, which skips the cycle entirely; otherwise run the
upsert pass over the fetched nodes and then the deletion pass over the
cache, against the set of freshly seen ids. -/
def syncNodes (cache : NodeCache) : Option (List TailscaleNode) → SyncResult
  | none => ⟨cache, []⟩
  | some nodes =>
    let up := upsertPass cache nodes
    let del := deletePass (nodes.map (fun n => n.id)) up.1
    ⟨del.1, up.2 ++ del.2⟩

/-- C10: when the node-list fetch fails, `syncNodes` leaves the cache
exactly as it was and queues no change keys. -/
theorem syncNodes_fetch_error_noop (cache : NodeCache) :
    syncNodes cache none = ⟨cache, []⟩ := rfl


/-- Bool extensionality via the `= true` fragment. -/
theorem bool_eq_of_iff {a b : Bool} (h : a = true ↔ b = true) : a = b := by
  cases a <;> cases b <;> simp_all

/-- `List.contains` on strings agrees with list membership. -/
theorem contains_iff_mem {l : List String} {a : String} :
    l.contains a = true ↔ a ∈ l := List.elem_iff

/-- A successful cache lookup means the id is among the cache keys. -/
theorem lookupNode_some_mem_keys {cache : NodeCache} {k : String}
    {m : TailscaleNode} (h : lookupNode cache k = some m) :
    k ∈ cache.map Prod.fst := by
  simp only [lookupNode, Option.map_eq_some'] at h
  obtain ⟨p, hp, -⟩ := h
  have hmem := List.mem_of_find?_eq_some hp
  have hkey := List.find?_some hp
  have : p.1 = k := by simpa using hkey
  exact this ▸ List.mem_map_of_mem Prod.fst hmem

/-- Key membership after a Go-map write: the keys are the old keys plus the
written key. -/
theorem mem_keys_insertNode (cache : NodeCache) (k : String)
    (n : TailscaleNode) (j : String) :
    j ∈ (insertNode cache k n).map Prod.fst ↔
      j ∈ cache.map Prod.fst ∨ j = k := by
  unfold insertNode
  cases h : cache.any (fun p => p.1 == k) with
  | true =>
    have hkeys : (cache.map (fun p => if p.1 == k then (k, n) else p)).map
        Prod.fst = cache.map Prod.fst := by
      rw [List.map_map]
      apply List.map_congr_left
      intro p _
      cases hp : (p.1 == k) with
      | true => simp [Function.comp, hp, eq_of_beq hp]
      | false => simp [Function.comp, hp]
    have hk : k ∈ cache.map Prod.fst := by
      obtain ⟨p, hp, hpk⟩ := List.any_eq_true.mp h
      exact eq_of_beq hpk ▸ List.mem_map_of_mem Prod.fst hp
    simp only [h, if_true, hkeys]
    constructor
    · exact Or.inl
    · rintro (hj | rfl)
      · exact hj
      · exact hk
  | false =>
    simp [h]

/-- Key membership after the upsert pass: old keys plus all fresh ids. -/
theorem mem_keys_upsertPass (L : List TailscaleNode) (cache : NodeCache)
    (j : String) :
    j ∈ (upsertPass cache L).1.map Prod.fst ↔
      j ∈ cache.map Prod.fst ∨ j ∈ L.map (fun n => n.id) := by
  induction L generalizing cache with
  | nil => simp [upsertPass]
  | cons n rest ih =>
    cases hl : lookupNode cache n.id with
    | some existing =>
      cases he : nodesEqual existing n with
      | true =>
        have hn : n.id ∈ cache.map Prod.fst := lookupNode_some_mem_keys hl
        simp only [upsertPass, hl, he, if_true, ih, List.map_cons,
          List.mem_cons]
        constructor
        · rintro (h | h)
          · exact Or.inl h
          · exact Or.inr (Or.inr h)
        · rintro (h | rfl | h)
          · exact Or.inl h
          · exact Or.inl hn
          · exact Or.inr h
      | false =>
        simp only [upsertPass, hl, he, Bool.false_eq_true, if_false, ih,
          mem_keys_insertNode, List.map_cons, List.mem_cons]
        tauto
    | none =>
      simp only [upsertPass, hl, ih, mem_keys_insertNode, List.map_cons,
        List.mem_cons]
      tauto

/-- Key membership after the deletion pass: old keys that were seen in the
fresh snapshot. -/
theorem mem_keys_deletePass (ids : List String) (cache : NodeCache)
    (j : String) :
    j ∈ (deletePass ids cache).1.map Prod.fst ↔
      j ∈ cache.map Prod.fst ∧ ids.contains j = true := by
  induction cache with
  | nil => simp [deletePass]
  | cons p rest ih =>
    cases h : ids.contains p.1 with
    | true =>
      simp only [deletePass, h, if_true, List.map_cons, List.mem_cons, ih]
      by_cases hj : j = p.1
      · subst hj
        simp [h, contains_iff_mem.mp h]
      · simp [hj]
    | false =>
      simp only [deletePass, h, Bool.false_eq_true, if_false, ih,
        List.map_cons, List.mem_cons]
      constructor
      · rintro ⟨hm, hc⟩
        exact ⟨Or.inr hm, hc⟩
      · rintro ⟨hm | hm, hc⟩
        · subst hm
          rw [hc] at h
          cases h
        · exact ⟨hm, hc⟩

/-- C7: after any change-detector run on a successfully fetched node list,
the set of cached ids equals the set of ids in that list — from any prior
cache, so the invariant is preserved by every successful poll cycle
starting from the empty cache. -/
theorem syncNodes_cache_keys (cache : NodeCache) (L : List TailscaleNode)
    (j : String) :
    ((syncNodes cache (some L)).cache.map Prod.fst).contains j =
      (L.map (fun n => n.id)).contains j := by
  apply bool_eq_of_iff
  rw [contains_iff_mem, contains_iff_mem]
  simp only [syncNodes, mem_keys_deletePass, mem_keys_upsertPass]
  rw [contains_iff_mem]
  constructor
  · rintro ⟨-, hc⟩
    exact hc
  · intro h
    exact ⟨Or.inr h, h⟩

/-- String append is cancellative on the right. -/
theorem strAppend_cancel {a b c : String} (h : a ++ c = b ++ c) : a = b := by
  apply String.ext
  have hd := congrArg String.data h
  rw [String.data_append, String.data_append] at hd
  exact List.append_cancel_right hd

/-- Appending `:delete` to distinct keys keeps them distinct. -/
theorem beq_append_delete (a b : String) :
    ((a ++ ":delete") == (b ++ ":delete")) = (a == b) := by
  apply bool_eq_of_iff
  simp only [beq_iff_eq]
  exact ⟨strAppend_cancel, fun h => h ▸ rfl⟩

/-- A Go-map write under a different key does not change how often a key
occurs among the cache keys. -/
theorem count_keys_insertNode (cache : NodeCache) (k : String)
    (n : TailscaleNode) (id : String) (hne : (k == id) = false) :
    ((insertNode cache k n).map Prod.fst).count id =
      (cache.map Prod.fst).count id := by
  unfold insertNode
  cases h : cache.any (fun p => p.1 == k) with
  | true =>
    simp only [h, if_true, List.map_map]
    congr 1
    apply List.map_congr_left
    intro p _
    cases hp : (p.1 == k) with
    | true => simp [Function.comp, hp, eq_of_beq hp]
    | false => simp [Function.comp, hp]
  | false =>
    simp only [h, Bool.false_eq_true, if_false, List.map_append,
      List.count_append]
    simp [List.count_cons, hne]

/-- The upsert pass does not change how often an id absent from the fresh
list occurs among the cache keys. -/
theorem count_keys_upsertPass (L : List TailscaleNode) (cache : NodeCache)
    (id : String) (habs : ∀ n ∈ L, (n.id == id) = false) :
    ((upsertPass cache L).1.map Prod.fst).count id =
      (cache.map Prod.fst).count id := by
  induction L generalizing cache with
  | nil => simp [upsertPass]
  | cons n rest ih =>
    have hn : (n.id == id) = false := habs n (List.mem_cons_self n rest)
    have hrest : ∀ m ∈ rest, (m.id == id) = false :=
      fun m hm => habs m (List.mem_cons_of_mem n hm)
    cases hl : lookupNode cache n.id with
    | some existing =>
      cases he : nodesEqual existing n with
      | true => simp only [upsertPass, hl, he, if_true, ih _ hrest]
      | false =>
        simp only [upsertPass, hl, he, Bool.false_eq_true, if_false]
        rw [ih _ hrest, count_keys_insertNode cache n.id n id hn]
    | none =>
      simp only [upsertPass, hl]
      rw [ih _ hrest, count_keys_insertNode cache n.id n id hn]

/-- Every key queued by the upsert pass is the id of a freshly listed node. -/
theorem upsertPass_queued_mem (L : List TailscaleNode) (cache : NodeCache)
    (k : String) (hk : k ∈ (upsertPass cache L).2) :
    k ∈ L.map (fun n => n.id) := by
  induction L generalizing cache with
  | nil => simp [upsertPass] at hk
  | cons n rest ih =>
    simp only [List.map_cons, List.mem_cons]
    cases hl : lookupNode cache n.id with
    | some existing =>
      cases he : nodesEqual existing n with
      | true =>
        simp only [upsertPass, hl, he, if_true] at hk
        exact Or.inr (ih _ hk)
      | false =>
        simp only [upsertPass, hl, he, Bool.false_eq_true, if_false,
          List.mem_cons] at hk
        rcases hk with rfl | hk
        · exact Or.inl rfl
        · exact Or.inr (ih _ hk)
    | none =>
      simp only [upsertPass, hl, List.mem_cons] at hk
      rcases hk with rfl | hk
      · exact Or.inl rfl
      · exact Or.inr (ih _ hk)

/-- For an id missing from the fresh snapshot, the deletion pass queues its
tombstone key exactly as often as the id occurs among the cache keys. -/
theorem count_deletePass_queued (ids : List String) (cache : NodeCache)
    (id : String) (hid : ids.contains id = false) :
    ((deletePass ids cache).2).count (id ++ ":delete") =
      (cache.map Prod.fst).count id := by
  induction cache with
  | nil => simp [deletePass]
  | cons p rest ih =>
    cases h : ids.contains p.1 with
    | true =>
      have hne : (p.1 == id) = false := by
        cases hb : (p.1 == id) with
        | true =>
          rw [eq_of_beq hb, hid] at h
          cases h
        | false => rfl
      simp only [deletePass, h, if_true, List.map_cons, List.count_cons, ih,
        hne, Bool.false_eq_true, if_false, Nat.add_zero]
    | false =>
      simp only [deletePass, h, Bool.false_eq_true, if_false, List.map_cons,
        List.count_cons, ih, beq_append_delete]

/-- C6: a cached node whose id vanishes from the freshly fetched list gets
exactly one `<id>:delete` change key queued, and its id is removed from the
cache — provided the fresh ids do not reuse the id or collide with its
tombstone key. -/
theorem syncNodes_deletion_key (cache : NodeCache) (L : List TailscaleNode)
    (id : String)
    (hmem : (cache.map Prod.fst).contains id = true)
    (hnd : (cache.map Prod.fst).Nodup)
    (habs : (L.map (fun n => n.id)).contains id = false)
    (hcol : (L.map (fun n => n.id)).contains (id ++ ":delete") = false) :
    ((syncNodes cache (some L)).queued).count (id ++ ":delete") = 1 ∧
    ((syncNodes cache (some L)).cache.map Prod.fst).contains id = false := by
  constructor
  · simp only [syncNodes, List.count_append]
    have h1 : ((upsertPass cache L).2).count (id ++ ":delete") = 0 := by
      rw [List.count_eq_zero]
      intro hmem'
      have := upsertPass_queued_mem L cache _ hmem'
      rw [contains_iff_mem.mpr this] at hcol
      cases hcol
    have habs' : ∀ n ∈ L, (n.id == id) = false := by
      intro n hn
      cases hb : (n.id == id) with
      | true =>
        have : id ∈ L.map (fun n => n.id) :=
          eq_of_beq hb ▸ List.mem_map_of_mem (fun n => n.id) hn
        rw [contains_iff_mem.mpr this] at habs
        cases habs
      | false => rfl
    have h2 : ((deletePass (L.map (fun n => n.id))
        (upsertPass cache L).1).2).count (id ++ ":delete") = 1 := by
      rw [count_deletePass_queued _ _ _ habs,
        count_keys_upsertPass L cache id habs']
      exact List.count_eq_one_of_mem hnd (contains_iff_mem.mp hmem)
    rw [h1, h2]
  · cases hc : ((syncNodes cache (some L)).cache.map Prod.fst).contains id with
    | true =>
      have := contains_iff_mem.mp hc
      simp only [syncNodes, mem_keys_deletePass] at this
      rw [this.2] at habs
      cases habs
    | false => rfl

/-- Concrete inputs for the deletion-key witness: node `n1` cached, fresh
list containing only node `n2`. -/
def cachedNodeA : TailscaleNode :=
  ⟨"100", "web-server", "web-server", ["100.64.1.1"], [], true, 0⟩

/-- A second node, the only one present in the fresh snapshot. -/
def freshNodeB : TailscaleNode :=
  ⟨"200", "db-server", "db-server", ["100.64.2.2"], [], true, 0⟩

/-- C6 witness: with node `100` cached and a fresh list containing only node
`200`, exactly one `100:delete` key is queued and `100` leaves the cache. -/
theorem syncNodes_deletion_key_witness :
    ((syncNodes [("100", cachedNodeA)] (some [freshNodeB])).queued).count
        ("100" ++ ":delete") = 1 ∧
    ((syncNodes [("100", cachedNodeA)]
        (some [freshNodeB])).cache.map Prod.fst).contains "100" = false :=
  syncNodes_deletion_key [("100", cachedNodeA)] [freshNodeB] "100"
    (by decide) (by decide) (by decide) (by decide)

/-- Two nodes that agree on every field except possibly the tag list. -/
def sameExceptTags (a b : TailscaleNode) : Bool :=
  a.id == b.id && a.name == b.name && a.hostname == b.hostname &&
    a.addresses == b.addresses && a.online == b.online &&
    a.lastSeen == b.lastSeen

/-- The element-wise address comparison accepts identical lists. -/
theorem addressesEqual_refl (l : List String) : addressesEqual l l = true := by
  induction l with
  | nil => rfl
  | cons a rest ih => simp [addressesEqual, ih]

/-- Nodes differing only in tags compare equal under `nodesEqual`. -/
theorem nodesEqual_of_sameExceptTags {a b : TailscaleNode}
    (h : sameExceptTags a b = true) : nodesEqual a b = true := by
  simp only [sameExceptTags, Bool.and_eq_true, beq_iff_eq] at h
  obtain ⟨⟨⟨⟨⟨-, hname⟩, -⟩, haddr⟩, honline⟩, -⟩ := h
  simp [nodesEqual, hname, honline, haddr, addressesEqual_refl]

/-- Nodes differing only in tags have the same id. -/
theorem id_eq_of_sameExceptTags {a b : TailscaleNode}
    (h : sameExceptTags a b = true) : a.id = b.id := by
  simp only [sameExceptTags, Bool.and_eq_true, beq_iff_eq] at h
  exact h.1.1.1.1.1

/-- The cache an initial poll builds from a node list: one entry per node,
keyed by id, in list order. -/
def buildCache (nodes : List TailscaleNode) : NodeCache :=
  nodes.map (fun n => (n.id, n))

/-- A missing key means no cache entry carries it. -/
theorem lookupNode_none_any {cache : NodeCache} {k : String}
    (h : lookupNode cache k = none) :
    cache.any (fun p => p.1 == k) = false := by
  simp only [lookupNode, Option.map_eq_none'] at h
  rw [List.any_eq_false]
  intro p hp
  have := List.find?_eq_none.mp h p hp
  simpa using this

/-- Looking a fresh id up in an appended singleton. -/
theorem lookupNode_append_single (cache : NodeCache) (k j : String)
    (n : TailscaleNode) :
    lookupNode (cache ++ [(k, n)]) j =
      (lookupNode cache j).or (if (k == j) = true then some n else none) := by
  simp only [lookupNode, List.find?_append]
  cases hf : cache.find? (fun p => p.1 == j) with
  | some p => simp
  | none =>
    cases hk : (k == j) with
    | true => simp [List.find?, hk]
    | false => simp [List.find?, hk]

/-- Under nodup ids, looking up a member node's id in the built cache
returns that node. -/
theorem lookupNode_buildCache {L : List TailscaleNode} {n : TailscaleNode}
    (hnd : (L.map (fun m => m.id)).Nodup) (hn : n ∈ L) :
    lookupNode (buildCache L) n.id = some n := by
  induction L with
  | nil => cases hn
  | cons m rest ih =>
    rw [List.map_cons, List.nodup_cons] at hnd
    rcases List.mem_cons.mp hn with rfl | hn'
    · simp [lookupNode, buildCache, List.find?]
    · have hne : (m.id == n.id) = false := by
        cases hb : (m.id == n.id) with
        | true =>
          exact absurd (eq_of_beq hb ▸ List.mem_map_of_mem
            (fun x => x.id) hn') hnd.1
        | false => rfl
      simp only [buildCache, List.map_cons, lookupNode, List.find?, hne]
      exact ih hnd.2 hn'

/-- The upsert pass over a list of entirely new nodes with distinct ids
appends one cache entry per node and queues every id, in order. -/
theorem upsertPass_all_new (L : List TailscaleNode) (cache : NodeCache)
    (hnew : ∀ n ∈ L, lookupNode cache n.id = none)
    (hnd : (L.map (fun n => n.id)).Nodup) :
    upsertPass cache L = (cache ++ buildCache L, L.map (fun n => n.id)) := by
  induction L generalizing cache with
  | nil => simp [upsertPass, buildCache]
  | cons n rest ih =>
    rw [List.map_cons, List.nodup_cons] at hnd
    have hn := hnew n (List.mem_cons_self n rest)
    have hins : insertNode cache n.id n = cache ++ [(n.id, n)] := by
      unfold insertNode
      rw [lookupNode_none_any hn]
      simp
    have hrest : ∀ m ∈ rest, lookupNode (cache ++ [(n.id, n)]) m.id = none := by
      intro m hm
      rw [lookupNode_append_single]
      have hne : (n.id == m.id) = false := by
        cases hb : (n.id == m.id) with
        | true =>
          exact absurd (eq_of_beq hb ▸ List.mem_map_of_mem
            (fun x => x.id) hm) hnd.1
        | false => rfl
      rw [hnew m (List.mem_cons_of_mem n hm), hne]
      simp
    simp only [upsertPass, hn, hins, ih (cache ++ [(n.id, n)]) hrest hnd.2]
    simp [buildCache]

/-- The upsert pass is a no-op when every fresh node is cached unchanged. -/
theorem upsertPass_nochange (L : List TailscaleNode) (cache : NodeCache)
    (h : ∀ n ∈ L, ∃ m, lookupNode cache n.id = some m ∧
      nodesEqual m n = true) :
    upsertPass cache L = (cache, []) := by
  induction L with
  | nil => rfl
  | cons n rest ih =>
    obtain ⟨m, hl, he⟩ := h n (List.mem_cons_self n rest)
    simp only [upsertPass, hl, he, if_true]
    exact ih (fun n' hn' => h n' (List.mem_cons_of_mem n hn'))

/-- The deletion pass keeps every entry whose key was freshly seen and
queues nothing when all keys were seen. -/
theorem deletePass_keep_all (ids : List String) (cache : NodeCache)
    (h : ∀ p ∈ cache, ids.contains p.1 = true) :
    deletePass ids cache = (cache, []) := by
  induction cache with
  | nil => rfl
  | cons p rest ih =>
    have hp := h p (List.mem_cons_self p rest)
    simp only [deletePass, hp, if_true,
      ih (fun q hq => h q (List.mem_cons_of_mem p hq))]

/-- A successful initial poll from the empty cache caches exactly the
fetched nodes, keyed by id, and queues each id once. -/
theorem syncNodes_from_empty (L : List TailscaleNode)
    (hnd : (L.map (fun n => n.id)).Nodup) :
    syncNodes [] (some L) = ⟨buildCache L, L.map (fun n => n.id)⟩ := by
  have hup := upsertPass_all_new L [] (fun n _ => rfl) hnd
  have hkeep : ∀ p ∈ buildCache L,
      (L.map (fun n => n.id)).contains p.1 = true := by
    intro p hp
    simp only [buildCache, List.mem_map] at hp
    obtain ⟨n, hn, rfl⟩ := hp
    exact contains_iff_mem.mpr (List.mem_map_of_mem (fun n => n.id) hn)
  simp [syncNodes, hup, deletePass_keep_all _ _ hkeep]

/-- Pointwise `sameExceptTags` over equal-length lists, as `Forall₂`. -/
theorem forall₂_sameExceptTags_of_zip {L1 L2 : List TailscaleNode}
    (hlen : L1.length = L2.length)
    (hdiff : (L1.zip L2).all (fun p => sameExceptTags p.1 p.2) = true) :
    List.Forall₂ (fun a b => sameExceptTags a b = true) L1 L2 := by
  induction L1 generalizing L2 with
  | nil =>
    cases L2 with
    | nil => exact List.Forall₂.nil
    | cons b bs => cases hlen
  | cons a as ih =>
    cases L2 with
    | nil => cases hlen
    | cons b bs =>
      simp only [List.zip_cons_cons, List.all_cons, Bool.and_eq_true] at hdiff
      exact List.Forall₂.cons hdiff.1
        (ih (by simpa using hlen) hdiff.2)

/-- Lists that differ only in tags list the same ids in the same order. -/
theorem ids_eq_of_forall₂ {L1 L2 : List TailscaleNode}
    (h : List.Forall₂ (fun a b => sameExceptTags a b = true) L1 L2) :
    L1.map (fun n => n.id) = L2.map (fun n => n.id) := by
  induction h with
  | nil => rfl
  | cons ha _ ih =>
    simp only [List.map_cons, ih, List.cons.injEq, and_true]
    exact id_eq_of_sameExceptTags ha

/-- Every right-hand member of a `Forall₂` has a related left-hand member. -/
theorem forall₂_mem_right {L1 L2 : List TailscaleNode}
    (h : List.Forall₂ (fun a b => sameExceptTags a b = true) L1 L2)
    {b : TailscaleNode} (hb : b ∈ L2) :
    ∃ a ∈ L1, sameExceptTags a b = true := by
  induction h with
  | nil => cases hb
  | cons ha _ ih =>
    rcases List.mem_cons.mp hb with rfl | hb'
    · exact ⟨_, List.mem_cons_self _ _, ha⟩
    · obtain ⟨a, haL, hab⟩ := ih hb'
      exact ⟨a, List.mem_cons_of_mem _ haL, hab⟩

/-- C5: diffing a node list that differs from the cached snapshot only in
tag lists emits no change keys and leaves the cache's key set unchanged. -/
theorem syncNodes_tag_change_noop (L1 L2 : List TailscaleNode)
    (hlen : L1.length = L2.length)
    (hdiff : (L1.zip L2).all (fun p => sameExceptTags p.1 p.2) = true)
    (hnd : (L1.map (fun n => n.id)).Nodup) :
    (syncNodes (syncNodes [] (some L1)).cache (some L2)).queued = [] ∧
    (syncNodes (syncNodes [] (some L1)).cache (some L2)).cache.map Prod.fst =
      (syncNodes [] (some L1)).cache.map Prod.fst := by
  have hf := forall₂_sameExceptTags_of_zip hlen hdiff
  have hids := ids_eq_of_forall₂ hf
  rw [syncNodes_from_empty L1 hnd]
  have hcached : ∀ n ∈ L2, ∃ m, lookupNode (buildCache L1) n.id = some m ∧
      nodesEqual m n = true := by
    intro n hn
    obtain ⟨a, haL, hab⟩ := forall₂_mem_right hf hn
    refine ⟨a, ?_, nodesEqual_of_sameExceptTags hab⟩
    rw [← id_eq_of_sameExceptTags hab]
    exact lookupNode_buildCache hnd haL
  have hup := upsertPass_nochange L2 (buildCache L1) hcached
  have hkeep : ∀ p ∈ buildCache L1,
      (L2.map (fun n => n.id)).contains p.1 = true := by
    intro p hp
    simp only [buildCache, List.mem_map] at hp
    obtain ⟨n, hn, rfl⟩ := hp
    rw [← hids]
    exact contains_iff_mem.mpr (List.mem_map_of_mem (fun n => n.id) hn)
  simp [syncNodes, hup, deletePass_keep_all _ _ hkeep]

/-- The same node as `cachedNodeA` but with a different tag list. -/
def cachedNodeARetagged : TailscaleNode :=
  ⟨"100", "web-server", "web-server", ["100.64.1.1"], ["tag:prod"], true, 0⟩

/-- C5 witness: a one-node list whose only change is a new tag list
produces no change keys and leaves the cached key set as it was. -/
theorem syncNodes_tag_change_noop_witness :
    (syncNodes (syncNodes [] (some [cachedNodeA])).cache
        (some [cachedNodeARetagged])).queued = [] ∧
    (syncNodes (syncNodes [] (some [cachedNodeA])).cache
        (some [cachedNodeARetagged])).cache.map Prod.fst =
      (syncNodes [] (some [cachedNodeA])).cache.map Prod.fst :=
  syncNodes_tag_change_noop [cachedNodeA] [cachedNodeARetagged]
    (by decide) (by decide) (by decide)

/-- `shouldManageNode`: with a non-empty required-tag set, manage a node
only if some node tag is in the set; an empty set manages every node.  The
set models the keys of the reconciler's tag-filter map. -/
def shouldManageNode (requiredTags : List String)
    (node : TailscaleNode) : Bool :=
  if requiredTags.length > 0 then
    node.tags.any (fun tag => requiredTags.contains tag)
  else true

/-- The per-address record built by the upsert path: name
`<derived-name>.<domain>`, type `AAAA` when the address literal contains a
colon and `A` otherwise, value the address, TTL 300. -/
def addrRecord (recordName addr : String) : DNSRecord :=
  ⟨recordName, if strContains addr ":" then "AAAA" else "A", addr, 300⟩

/-- The TXT ownership record: same name, value
`"dnsscale-managed node_id=<id>"` including the literal double quotes,
TTL 300. -/
def txtOwnershipRecord (recordName nodeID : String) : DNSRecord :=
  ⟨recordName, "TXT", "\"" ++ "dnsscale-managed node_id=" ++ nodeID ++ "\"",
    300⟩

/-- The Publish-Addresses loop: upsert one record per address in order,
stopping at the first backend failure.  Returns the `UpdateRecord` calls
made (in order) and whether all succeeded. -/
def publishAddresses (updateOk : DNSRecord → Bool) (recordName : String) :
    List String → List BackendOp × Bool
  | [] => ([], true)
  | addr :: rest =>
    let r := addrRecord recordName addr
    if updateOk r then
      let next := publishAddresses updateOk recordName rest
      (BackendOp.update r :: next.1, next.2)
    else ([BackendOp.update r], false)

/-- `reconcile`: the per-key state machine.  A `:delete`-suffixed key runs
the deletion sweep; otherwise the key is resolved in the cache, filtered by
tags, its address records published (aborting on the first failure) and the
TXT ownership record upserted best-effort (its failure does not fail the
key).  Returns the backend calls made, in order, and the key's result. -/
def reconcile (updateOk : DNSRecord → Bool)
    (listResult : Option (List DNSRecord)) (requiredTags : List String)
    (domain : String) (cache : NodeCache) (key : String) :
    List BackendOp × Except String Unit :=
  if hasDeleteSuffix key then
    match deleteNodeDNS listResult (trimDeleteSuffix key) with
    | .ok deleted => (BackendOp.listAll :: deleted.map BackendOp.delete, .ok ())
    | .error e => ([BackendOp.listAll], .error e)
  else
    match lookupNode cache key with
    | none => ([], .error ("node " ++ key ++ " not found in cache"))
    | some node =>
      if shouldManageNode requiredTags node then
        let recordName := node.name ++ "." ++ domain
        let pub := publishAddresses updateOk recordName node.addresses
        if pub.2 then
          (pub.1 ++ [BackendOp.update (txtOwnershipRecord recordName node.id)],
            .ok ())
        else (pub.1, .error "failed to update DNS record")
      else ([], .ok ())

/-- What the queue worker does with a finished key: `Forget` on success,
`AddRateLimited` (re-queue with backoff) on error. -/
inductive WorkerAction where
  | forget
  | addRateLimited
  deriving DecidableEq

/-- The worker's handling of one reconcile result. -/
def workerStep (res : Except String Unit) : WorkerAction :=
  match res with
  | .ok _ => .forget
  | .error _ => .addRateLimited

/-- When every upsert succeeds, Publish-Addresses calls the backend once
per address, in order, and reports success. -/
theorem publishAddresses_all_ok (updateOk : DNSRecord → Bool)
    (recordName : String) (addrs : List String)
    (h : ∀ a ∈ addrs, updateOk (addrRecord recordName a) = true) :
    publishAddresses updateOk recordName addrs =
      (addrs.map (fun a => BackendOp.update (addrRecord recordName a)),
        true) := by
  induction addrs with
  | nil => rfl
  | cons a rest ih =>
    have ha := h a (List.mem_cons_self a rest)
    simp only [publishAddresses, ha, if_true,
      ih (fun b hb => h b (List.mem_cons_of_mem a hb)), List.map_cons]

/-- A failing upsert stops Publish-Addresses right after the failed call:
the calls made are those for the successful leading addresses plus the one
that failed, and the pass reports failure. -/
theorem publishAddresses_fails_at (updateOk : DNSRecord → Bool)
    (recordName : String) (pre post : List String) (a : String)
    (hpre : ∀ b ∈ pre, updateOk (addrRecord recordName b) = true)
    (hfail : updateOk (addrRecord recordName a) = false) :
    publishAddresses updateOk recordName (pre ++ a :: post) =
      (pre.map (fun b => BackendOp.update (addrRecord recordName b)) ++
        [BackendOp.update (addrRecord recordName a)], false) := by
  induction pre with
  | nil => simp [publishAddresses, hfail]
  | cons b rest ih =>
    have hb := hpre b (List.mem_cons_self b rest)
    simp only [List.cons_append, publishAddresses, hb, if_true,
      List.append_eq, ih (fun c hc => hpre c (List.mem_cons_of_mem b hc)),
      List.map_cons, List.cons_append]

/-- C2: for a cached node passing the tag filter, with every backend upsert
succeeding, the upsert reconcile path issues exactly one `UpdateRecord` per
address — named `<name>.<domain>`, typed `AAAA` when the address contains a
colon and `A` otherwise, valued with the address, TTL 300 — followed by
exactly one `UpdateRecord` of the TXT ownership record whose value is
`dnsscale-managed node_id=<id>` wrapped in literal double quotes, TTL 300;
no other backend operation is invoked, and the key succeeds. -/
theorem reconcile_upsert_calls (updateOk : DNSRecord → Bool)
    (listResult : Option (List DNSRecord)) (requiredTags : List String)
    (domain : String) (cache : NodeCache) (key : String)
    (node : TailscaleNode)
    (hkey : hasDeleteSuffix key = false)
    (hlook : lookupNode cache key = some node)
    (hmanage : shouldManageNode requiredTags node = true)
    (hupd : ∀ r, updateOk r = true) :
    reconcile updateOk listResult requiredTags domain cache key =
      (node.addresses.map (fun a => BackendOp.update
          ⟨node.name ++ "." ++ domain,
            if strContains a ":" then "AAAA" else "A", a, 300⟩) ++
        [BackendOp.update ⟨node.name ++ "." ++ domain, "TXT",
          "\"" ++ "dnsscale-managed node_id=" ++ node.id ++ "\"", 300⟩],
        Except.ok ()) := by
  have hall : ∀ a ∈ node.addresses,
      updateOk (addrRecord (node.name ++ "." ++ domain) a) = true :=
    fun a _ => hupd _
  simp only [reconcile, hkey, Bool.false_eq_true, if_false, hlook, hmanage,
    if_true, publishAddresses_all_ok updateOk _ _ hall]
  simp [addrRecord, txtOwnershipRecord]

/-- The upsert-path example node from the specification. -/
def specNode : TailscaleNode :=
  ⟨"123456", "web-server", "web-server",
    ["100.64.1.1", "fd7a:115c:a1e0::1"], [], true, 0⟩

/-- C2 witness: the spec's example — node `web-server` with one IPv4 and
one IPv6 address under domain `example.com` yields exactly the A, AAAA and
TXT upserts, all TTL 300, in that order. -/
theorem reconcile_upsert_calls_witness :
    reconcile (fun _ => true) none [] "example.com"
        [("123456", specNode)] "123456" =
      (specNode.addresses.map (fun a => BackendOp.update
          ⟨specNode.name ++ "." ++ "example.com",
            if strContains a ":" then "AAAA" else "A", a, 300⟩) ++
        [BackendOp.update ⟨specNode.name ++ "." ++ "example.com", "TXT",
          "\"" ++ "dnsscale-managed node_id=" ++ specNode.id ++ "\"", 300⟩],
        Except.ok ()) :=
  reconcile_upsert_calls (fun _ => true) none [] "example.com"
    [("123456", specNode)] "123456" specNode
    (by decide) (by decide) (by decide) (fun _ => rfl)

/-- C8: when every per-address upsert succeeds but the TXT ownership upsert
fails, the reconciliation still succeeds, and the worker forgets the key
instead of re-queueing it. -/
theorem reconcile_txt_failure_still_ok (updateOk : DNSRecord → Bool)
    (listResult : Option (List DNSRecord)) (requiredTags : List String)
    (domain : String) (cache : NodeCache) (key : String)
    (node : TailscaleNode)
    (hkey : hasDeleteSuffix key = false)
    (hlook : lookupNode cache key = some node)
    (hmanage : shouldManageNode requiredTags node = true)
    (haddr : ∀ a ∈ node.addresses,
      updateOk (addrRecord (node.name ++ "." ++ domain) a) = true)
    (htxt : updateOk
      (txtOwnershipRecord (node.name ++ "." ++ domain) node.id) = false) :
    (reconcile updateOk listResult requiredTags domain cache key).2 =
        Except.ok () ∧
    workerStep (reconcile updateOk listResult requiredTags domain
        cache key).2 = WorkerAction.forget := by
  simp only [reconcile, hkey, Bool.false_eq_true, if_false, hlook, hmanage,
    if_true, publishAddresses_all_ok updateOk _ _ haddr]
  simp [workerStep]

/-- C8 witness: a backend accepting every record except TXT ones still lets
the spec's example node reconcile successfully, and the worker forgets the
key. -/
theorem reconcile_txt_failure_still_ok_witness :
    (reconcile (fun r => !(r.type == "TXT")) none [] "example.com"
        [("123456", specNode)] "123456").2 = Except.ok () ∧
    workerStep (reconcile (fun r => !(r.type == "TXT")) none [] "example.com"
        [("123456", specNode)] "123456").2 = WorkerAction.forget :=
  reconcile_txt_failure_still_ok (fun r => !(r.type == "TXT")) none []
    "example.com" [("123456", specNode)] "123456" specNode
    (by decide) (by decide) (by decide) (by decide) (by decide)

/-- C9: when the upsert of some address record fails, the reconciliation
stops at that call — issuing the updates for the earlier addresses, then
the failing one, and nothing else — returns an error, and the worker
re-queues the key with rate limiting instead of dropping it. -/
theorem reconcile_addr_failure_aborts (updateOk : DNSRecord → Bool)
    (listResult : Option (List DNSRecord)) (requiredTags : List String)
    (domain : String) (cache : NodeCache) (key : String)
    (node : TailscaleNode) (pre post : List String) (a : String)
    (hkey : hasDeleteSuffix key = false)
    (hlook : lookupNode cache key = some node)
    (hmanage : shouldManageNode requiredTags node = true)
    (haddrs : node.addresses = pre ++ a :: post)
    (hpre : ∀ b ∈ pre,
      updateOk (addrRecord (node.name ++ "." ++ domain) b) = true)
    (hfail : updateOk (addrRecord (node.name ++ "." ++ domain) a) = false) :
    reconcile updateOk listResult requiredTags domain cache key =
      (pre.map (fun b => BackendOp.update
          (addrRecord (node.name ++ "." ++ domain) b)) ++
        [BackendOp.update (addrRecord (node.name ++ "." ++ domain) a)],
        Except.error "failed to update DNS record") ∧
    workerStep (reconcile updateOk listResult requiredTags domain
        cache key).2 = WorkerAction.addRateLimited := by
  have hpub := publishAddresses_fails_at updateOk
    (node.name ++ "." ++ domain) pre post a hpre hfail
  constructor
  · simp only [reconcile, hkey, Bool.false_eq_true, if_false, hlook,
      hmanage, if_true, haddrs, hpub]
  · simp only [reconcile, hkey, Bool.false_eq_true, if_false, hlook,
      hmanage, if_true, haddrs, hpub, workerStep]

/-- A node whose middle address will be rejected by the backend. -/
def failingNode : TailscaleNode :=
  ⟨"123456", "web-server", "web-server",
    ["100.64.1.1", "bad", "100.64.3.3"], [], true, 0⟩

/-- C9 witness: with a backend rejecting the record valued `bad`, the run
issues the first address upsert and the failing one, stops, errors, and the
worker re-queues the key. -/
theorem reconcile_addr_failure_aborts_witness :
    reconcile (fun r => !(r.value == "bad")) none [] "example.com"
        [("123456", failingNode)] "123456" =
      (["100.64.1.1"].map (fun b => BackendOp.update
          (addrRecord (failingNode.name ++ "." ++ "example.com") b)) ++
        [BackendOp.update
          (addrRecord (failingNode.name ++ "." ++ "example.com") "bad")],
        Except.error "failed to update DNS record") ∧
    workerStep (reconcile (fun r => !(r.value == "bad")) none []
        "example.com" [("123456", failingNode)] "123456").2 =
      WorkerAction.addRateLimited :=
  reconcile_addr_failure_aborts (fun r => !(r.value == "bad")) none []
    "example.com" [("123456", failingNode)] "123456" failingNode
    ["100.64.1.1"] ["100.64.3.3"] "bad"
    (by decide) (by decide) (by decide) (by decide) (by decide) (by decide)
